import Mathlib

/-!
Shallow embedding of the merkle-tree repository (Rust) into Lean 4.

The repository implements a Merkle hash tree in two variants:
a compact variant (src/mk/compact.rs) that keeps only the leaf hashes and
recomputes every level on demand, and a full variant (src/mk/full.rs plus
src/tree.rs) that materialises the whole node graph with parent, child and
sibling references.

The concrete hash algorithms (src/utils/crypto.rs) are injected
capabilities; the tree logic only ever calls a data-hash function and a
two-input combine function, so the embedding is parametric in a `Hasher`
record.  Raw data items are modelled as byte lists (`List Nat`).

Rust `while` loops are embedded as fuel-indexed structural recursions with
the fuel chosen at the call site exactly large enough (sufficiency is
proved); a returned `none` models a panic (a failed `unwrap`) or a
diverging loop, `some` models normal termination.
-/

/-- Hash capability (the Hasher trait of src/utils/crypto.rs): a data-hash
function and an order-sensitive two-input combine function. -/
structure Hasher (α : Type) where
  hashData : List Nat → α
  combine : α → α → α

/-- The is_even helper of src/utils.rs. -/
def is_even (n : Nat) : Bool := n % 2 == 0

/-- CompactMerkleTree of src/mk/compact.rs.  The Rust Node wrapper holds a
single hash value, so leaves are stored directly as hash values. -/
structure CompactMerkleTree (α : Type) where
  leaves : List α
  root_hash : α

/-- CompactMerkleTree::get_parent_nodes: reduce one level by combining
consecutive pairs left to right; a lone trailing element is combined with
itself (Rust chunks(2) with the two match arms). -/
def get_parent_nodes (H : Hasher α) : List α → List α
  | [] => []
  | [a] => [H.combine a a]
  | a :: b :: rest => H.combine a b :: get_parent_nodes H rest

/-- The while loop of CompactMerkleTree::calculate_root, fuel-indexed:
reduce the level as long as more than one node remains. -/
def reduce_aux (H : Hasher α) : Nat → List α → Option (List α)
  | 0, _ => none
  | fuel + 1, nodes =>
    if 1 < nodes.length then reduce_aux H fuel (get_parent_nodes H nodes)
    else some nodes

/-- CompactMerkleTree::calculate_root: run the reduction loop, then take
element 0 and unwrap it (a failed unwrap, on an empty level, is `none`). -/
def calculate_root (H : Hasher α) (leaves : List α) : Option α :=
  (reduce_aux H leaves.length leaves).bind List.head?

/-- CompactMerkleTree::create: fails exactly on empty input, otherwise
hashes every item into a leaf and computes the root. -/
def CompactMerkleTree.create (H : Hasher α) (data : List (List Nat)) :
    Option (CompactMerkleTree α) :=
  if data.isEmpty then none
  else
    let leaves := data.map H.hashData
    (calculate_root H leaves).map (fun r => ⟨leaves, r⟩)

/-- CompactMerkleTree::add_leaf: push the new leaf hash, then rebuild the
root from the updated leaf list. -/
def CompactMerkleTree.add_leaf (H : Hasher α) (t : CompactMerkleTree α)
    (data : List Nat) : Option (CompactMerkleTree α) :=
  let leaves := t.leaves ++ [H.hashData data]
  (calculate_root H leaves).map (fun r => ⟨leaves, r⟩)

/-- CompactMerkleTree::delete_leaf: only if the index is in range, remove
the leaf and rebuild the root; otherwise do nothing. -/
def CompactMerkleTree.delete_leaf (H : Hasher α) (t : CompactMerkleTree α)
    (index : Nat) : Option (CompactMerkleTree α) :=
  if index < t.leaves.length then
    let leaves := t.leaves.eraseIdx index
    (calculate_root H leaves).map (fun r => ⟨leaves, r⟩)
  else some t

/-- CompactMerkleTree::update_leaf: only if the index is in range, replace
the leaf hash in place and rebuild the root; otherwise do nothing. -/
def CompactMerkleTree.update_leaf (H : Hasher α) (t : CompactMerkleTree α)
    (index : Nat) (data : List Nat) : Option (CompactMerkleTree α) :=
  if index < t.leaves.length then
    let leaves := t.leaves.set index (H.hashData data)
    (calculate_root H leaves).map (fun r => ⟨leaves, r⟩)
  else some t

/-- The while loop of CompactMerkleTree::gen_proof, fuel-indexed: while
more than one node remains, look up the sibling (falling back to the node
itself when the sibling position does not exist), push its hash, reduce the
level and halve the index. -/
def gen_proof_aux (H : Hasher α) : Nat → List α → Nat → Option (List α)
  | 0, _, _ => none
  | fuel + 1, nodes, leaf_idx =>
    if 1 < nodes.length then
      let sibling_idx := if is_even leaf_idx then leaf_idx + 1 else leaf_idx - 1
      match (nodes.get? sibling_idx).orElse (fun _ => nodes.get? leaf_idx) with
      | none => none
      | some s =>
          (gen_proof_aux H fuel (get_parent_nodes H nodes) (leaf_idx / 2)).map
            (fun rest => s :: rest)
    else some []

/-- CompactMerkleTree::gen_proof: an out-of-range index is the explicit
error result (`none` here); otherwise run the collection loop over the
retained leaf hashes. -/
def CompactMerkleTree.gen_proof (H : Hasher α) (t : CompactMerkleTree α)
    (leaf_idx : Nat) : Option (List α) :=
  if leaf_idx < t.leaves.length then gen_proof_aux H t.leaves.length t.leaves leaf_idx
  else none

/-- The replay loop shared by both variants' verify_proof: combine the
running hash with each proof element, on the left or right depending on the
parity of the running index, halving the index each step. -/
def verify_fold (H : Hasher α) : α → Nat → List α → α
  | leaf_hash, _, [] => leaf_hash
  | leaf_hash, leaf_idx, h :: rest =>
      verify_fold H
        (if is_even leaf_idx then H.combine leaf_hash h else H.combine h leaf_hash)
        (leaf_idx / 2) rest

/-- CompactMerkleTree::verify_proof: replay the proof and compare the
result against the stored root hash. -/
def CompactMerkleTree.verify_proof [DecidableEq α] (H : Hasher α)
    (t : CompactMerkleTree α) (leaf_hash : α) (leaf_idx : Nat)
    (proof : List α) : Bool :=
  verify_fold H leaf_hash leaf_idx proof == t.root_hash

/-- Reference computation, written from the words of the specification
(section 4.2, step 2): group the level into consecutive pairs left to
right, a pair (a, b) becomes combine(a, b), a lone trailing element a
becomes combine(a, a). -/
def specReduceLevel (H : Hasher α) : List α → List α
  | [] => []
  | [a] => [H.combine a a]
  | a :: b :: rest => H.combine a b :: specReduceLevel H rest

theorem specReduceLevel_length (H : Hasher α) (l : List α) :
    (specReduceLevel H l).length = (l.length + 1) / 2 := by
  induction l using specReduceLevel.induct H with
  | case1 => simp [specReduceLevel]
  | case2 a => simp [specReduceLevel]
  | case3 a b rest ih => simp [specReduceLevel, ih]; omega

/-- Reference computation, written from the words of the specification
(section 4.2): repeatedly reduce the level until exactly one hash remains;
that hash is the root.  Undefined (none) on the empty list. -/
def specReferenceRootAux (H : Hasher α) (hs : List α) : Option α :=
  match hs with
  | [] => none
  | [a] => some a
  | a :: b :: rest => specReferenceRootAux H (specReduceLevel H (a :: b :: rest))
termination_by hs.length
decreasing_by simp [specReduceLevel, specReduceLevel_length]; omega

/-- Reference computation of the specification: hash each item to a leaf
hash, then reduce per section 4.2 until one hash remains. -/
def specReferenceRoot (H : Hasher α) (data : List (List Nat)) : Option α :=
  specReferenceRootAux H (data.map H.hashData)

theorem get_parent_nodes_eq_spec (H : Hasher α) (l : List α) :
    get_parent_nodes H l = specReduceLevel H l := by
  induction l using get_parent_nodes.induct H <;>
    simp [get_parent_nodes, specReduceLevel, *]

theorem get_parent_nodes_length (H : Hasher α) (l : List α) :
    (get_parent_nodes H l).length = (l.length + 1) / 2 := by
  rw [get_parent_nodes_eq_spec, specReduceLevel_length]

theorem get_parent_nodes_get? (H : Hasher α) (l : List α) (j : Nat) :
    (get_parent_nodes H l).get? j =
      match l.get? (2 * j), l.get? (2 * j + 1) with
      | some a, some b => some (H.combine a b)
      | some a, none => some (H.combine a a)
      | none, _ => none := by
  induction l using get_parent_nodes.induct H generalizing j with
  | case1 => cases j <;> simp [get_parent_nodes]
  | case2 a => cases j <;> simp [get_parent_nodes, List.get?]
  | case3 a b rest ih =>
      cases j with
      | zero => simp [get_parent_nodes, List.get?]
      | succ j =>
          have h2 : 2 * (j + 1) = 2 * j + 1 + 1 := by omega
          rw [h2]
          simp only [get_parent_nodes, List.get?, ih]

theorem specReferenceRootAux_step (H : Hasher α) (nodes : List α)
    (h : 1 < nodes.length) :
    specReferenceRootAux H nodes =
      specReferenceRootAux H (specReduceLevel H nodes) := by
  match nodes, h with
  | a :: b :: rest, _ => rw [specReferenceRootAux]

theorem reduce_aux_spec (H : Hasher α) :
    ∀ fuel (l : List α), 1 ≤ l.length → l.length ≤ fuel →
      reduce_aux H fuel l = (specReferenceRootAux H l).map (fun r => [r]) := by
  intro fuel
  induction fuel with
  | zero => intro l h1 h2; omega
  | succ f ih =>
      intro l h1 h2
      by_cases hlen : 1 < l.length
      · rw [reduce_aux]
        simp only [hlen, if_true]
        rw [ih (get_parent_nodes H l)
              (by rw [get_parent_nodes_length]; omega)
              (by rw [get_parent_nodes_length]; omega),
            get_parent_nodes_eq_spec, ← specReferenceRootAux_step H l hlen]
      · match l, h1, hlen with
        | [a], _, _ => simp [reduce_aux, specReferenceRootAux]
        | [], h1, _ => simp at h1
        | a :: b :: rest, _, hl2 =>
            exact absurd (by simp only [List.length_cons]; omega) hl2

theorem calculate_root_eq_spec (H : Hasher α) (l : List α) (h : 1 ≤ l.length) :
    calculate_root H l = specReferenceRootAux H l := by
  unfold calculate_root
  rw [reduce_aux_spec H l.length l h (le_refl _)]
  cases specReferenceRootAux H l <;> simp

theorem gen_proof_aux_spec (H : Hasher α) :
    ∀ fuel (nodes : List α) (idx : Nat) (v : α),
      nodes.length ≤ fuel → nodes.get? idx = some v →
      ∃ p, gen_proof_aux H fuel nodes idx = some p ∧
        p.length = Nat.clog 2 nodes.length ∧
        specReferenceRootAux H nodes = some (verify_fold H v idx p) := by
  intro fuel
  induction fuel with
  | zero =>
      intro nodes idx v hf hv
      have hidx : idx < nodes.length := by rw [List.get?_eq_some] at hv; exact hv.1
      omega
  | succ f ih =>
      intro nodes idx v hf hv
      have hidx : idx < nodes.length := by rw [List.get?_eq_some] at hv; exact hv.1
      by_cases hlen : 1 < nodes.length
      · have hplen : (get_parent_nodes H nodes).length = (nodes.length + 1) / 2 :=
          get_parent_nodes_length H nodes
        have hf' : (get_parent_nodes H nodes).length ≤ f := by omega
        have hclog : Nat.clog 2 nodes.length =
            Nat.clog 2 ((nodes.length + 1) / 2) + 1 := by
          rw [Nat.clog_of_two_le one_lt_two (by omega)]
          have h21 : nodes.length + 2 - 1 = nodes.length + 1 := by omega
          rw [h21]
        have hstep : specReferenceRootAux H nodes =
            specReferenceRootAux H (get_parent_nodes H nodes) := by
          rw [specReferenceRootAux_step H nodes hlen, get_parent_nodes_eq_spec]
        rcases Nat.even_or_odd idx with he | ho
        · have he2 : idx % 2 = 0 := Nat.even_iff.mp he
          have hev : is_even idx = true := by simp [is_even, he2]
          have hq : 2 * (idx / 2) = idx := by omega
          by_cases hs : idx + 1 < nodes.length
          · obtain ⟨b, hb⟩ : ∃ b, nodes.get? (idx + 1) = some b :=
              ⟨_, List.get?_eq_some.mpr ⟨hs, rfl⟩⟩
            have hpar : (get_parent_nodes H nodes).get? (idx / 2) =
                some (H.combine v b) := by
              rw [get_parent_nodes_get?, hq, hv, hb]
            obtain ⟨p, hp, hplen2, hpspec⟩ := ih _ _ _ hf' hpar
            refine ⟨b :: p, ?_, ?_, ?_⟩
            · rw [gen_proof_aux]
              simp only [hlen, if_true, hev, hb, Option.orElse, hp, Option.map]
            · simp [hplen2, hplen, hclog]
            · rw [hstep, hpspec]
              simp [verify_fold, hev]
          · have hb : nodes.get? (idx + 1) = none := List.get?_eq_none.mpr (by omega)
            have hpar : (get_parent_nodes H nodes).get? (idx / 2) =
                some (H.combine v v) := by
              rw [get_parent_nodes_get?, hq, hv, hb]
            obtain ⟨p, hp, hplen2, hpspec⟩ := ih _ _ _ hf' hpar
            refine ⟨v :: p, ?_, ?_, ?_⟩
            · rw [gen_proof_aux]
              simp only [hlen, if_true, hev, hb, hv, Option.orElse, hp, Option.map]
            · simp [hplen2, hplen, hclog]
            · rw [hstep, hpspec]
              simp [verify_fold, hev]
        · have ho2 : idx % 2 = 1 := Nat.odd_iff.mp ho
          have hev : is_even idx = false := by simp [is_even, ho2]
          have hq : 2 * (idx / 2) = idx - 1 := by omega
          have hq1 : 2 * (idx / 2) + 1 = idx := by omega
          obtain ⟨b, hb⟩ : ∃ b, nodes.get? (idx - 1) = some b :=
            ⟨_, List.get?_eq_some.mpr ⟨by omega, rfl⟩⟩
          have hpar : (get_parent_nodes H nodes).get? (idx / 2) =
              some (H.combine b v) := by
            rw [get_parent_nodes_get?, hq1, hq, hb, hv]
          obtain ⟨p, hp, hplen2, hpspec⟩ := ih _ _ _ hf' hpar
          refine ⟨b :: p, ?_, ?_, ?_⟩
          · rw [gen_proof_aux]
            simp only [hlen, if_true, hev, Bool.false_eq_true, if_false, hb,
              Option.orElse, hp, Option.map]
          · simp [hplen2, hplen, hclog]
          · rw [hstep, hpspec]
            simp [verify_fold, hev]
      · have hl1 : nodes.length = 1 := by omega
        have hi0 : idx = 0 := by omega
        subst hi0
        obtain ⟨a, rfl⟩ := List.length_eq_one.mp hl1
        simp only [List.get?] at hv
        cases hv
        refine ⟨[], ?_, ?_, ?_⟩
        · rw [gen_proof_aux]; simp
        · simp [Nat.clog_one_right]
        · simp [specReferenceRootAux, verify_fold]

/-- Node of src/tree.rs: a hash value, an optional non-owning parent
reference, optional owned child references and optional non-owning sibling
references.  References (Rc and Weak) are modelled as indices into an
allocation arena; every Rc::new appends one node to the arena. -/
structure RNode (α : Type) where
  value : α
  parent : Option Nat
  children : Option (List Nat)
  siblings : Option (List Nat)

/-- Replace the node stored at an index, leaving the arena unchanged when
the index is out of range (never happens for indices of live nodes). -/
def arenaModify (st : List (RNode α)) (i : Nat) (f : RNode α → RNode α) :
    List (RNode α) :=
  match st.get? i with
  | some nd => st.set i (f nd)
  | none => st

/-- Node::set_parent_and_siblings of src/tree.rs: every node of the chunk
gets the new parent as parent reference and the other chunk members
(compared by pointer, here by arena index) as sibling references. -/
def set_parent_and_siblings (st : List (RNode α)) (parentId : Nat)
    (sibs : List Nat) : List (RNode α) :=
  sibs.foldl
    (fun ar s =>
      arenaModify ar s
        (fun nd =>
          { nd with
            parent := some parentId
            siblings := some (sibs.filter (fun o => o != s)) }))
    st

/-- Read the hash value stored at an arena index. -/
def nodeValue (st : List (RNode α)) (i : Nat) : Option α :=
  (st.get? i).map (fun nd => nd.value)

/-- FullMerkleTree::create_node of src/mk/full.rs: allocate a parent that
owns the two children and combines their hashes, then install parent and
sibling references in both children. -/
def create_node (H : Hasher α) (st : List (RNode α)) (a b : Nat) :
    Option (List (RNode α) × Nat) := do
  let va ← nodeValue st a
  let vb ← nodeValue st b
  let pid := st.length
  let st1 := st ++ [{ value := H.combine va vb, parent := none,
                      children := some [a, b], siblings := none }]
  pure (set_parent_and_siblings st1 pid [a, b], pid)

/-- Node::clone of src/tree.rs as used by src/mk/full.rs for a lone
trailing node: allocate a fresh node holding copies of all four fields. -/
def clone_node (st : List (RNode α)) (a : Nat) :
    Option (List (RNode α) × Nat) := do
  let nd ← st.get? a
  pure (st ++ [{ value := nd.value, parent := nd.parent,
                 children := nd.children, siblings := nd.siblings }],
        st.length)

/-- One chunks(2) pass of FullMerkleTree::create_tree: a pair becomes a
parent of both members; a lone trailing node is paired with a freshly
allocated clone of itself. -/
def build_level (H : Hasher α) (st : List (RNode α)) :
    List Nat → Option (List (RNode α) × List Nat)
  | [] => pure (st, [])
  | [a] => do
      let (st1, c) ← clone_node st a
      let (st2, p) ← create_node H st1 a c
      pure (st2, [p])
  | a :: b :: rest => do
      let (st1, p) ← create_node H st a b
      let (st2, ps) ← build_level H st1 rest
      pure (st2, p :: ps)

/-- The while loop of FullMerkleTree::create_tree, fuel-indexed: reduce the
level until exactly one node remains, then take element 0.  The Rust loop
runs while the length differs from 1, so it never terminates on an empty
level; exhausted fuel models that divergence as `none`. -/
def create_tree_aux (H : Hasher α) :
    Nat → List (RNode α) → List Nat → Option (List (RNode α) × Nat)
  | 0, _, _ => none
  | fuel + 1, st, ids =>
    if ids.length = 1 then (ids.get? 0).map (fun r => (st, r))
    else do
      let (st1, ids1) ← build_level H st ids
      create_tree_aux H fuel st1 ids1

/-- FullMerkleTree::create_tree with the fuel spelled out. -/
def create_tree (H : Hasher α) (st : List (RNode α)) (ids : List Nat) :
    Option (List (RNode α) × Nat) :=
  create_tree_aux H (ids.length + 1) st ids

/-- FullMerkleTree of src/mk/full.rs: the arena of allocated nodes, the
root node reference, the leaf node references and the cached root hash. -/
structure FullMerkleTree (α : Type) where
  arena : List (RNode α)
  tree : Nat
  leaves : List Nat
  root_hash : α

/-- FullMerkleTree::create: fails exactly on empty input; otherwise hash
every item into a fresh leaf node, materialise the tree above the leaves
and cache the root node's hash. -/
def FullMerkleTree.create (H : Hasher α) (data : List (List Nat)) :
    Option (FullMerkleTree α) :=
  if data.isEmpty then none
  else do
    let st : List (RNode α) :=
      data.map (fun d => { value := H.hashData d, parent := none,
                           children := none, siblings := none })
    let leafIds := List.range data.length
    let (stF, root) ← create_tree H st leafIds
    let rh ← nodeValue stF root
    pure ⟨stF, root, leafIds, rh⟩

/-- FullMerkleTree::add_leaf: allocate a fresh leaf node, push its
reference and rebuild the tree over the grown leaf list. -/
def FullMerkleTree.add_leaf (H : Hasher α) (t : FullMerkleTree α)
    (data : List Nat) : Option (FullMerkleTree α) := do
  let st := t.arena ++ [{ value := H.hashData data, parent := none,
                          children := none, siblings := none }]
  let leaves := t.leaves ++ [t.arena.length]
  let (stF, root) ← create_tree H st leaves
  let rh ← nodeValue stF root
  pure ⟨stF, root, leaves, rh⟩

/-- FullMerkleTree::delete_leaf: only if the index is in range, remove the
leaf reference and rebuild the tree; otherwise do nothing. -/
def FullMerkleTree.delete_leaf (H : Hasher α) (t : FullMerkleTree α)
    (index : Nat) : Option (FullMerkleTree α) :=
  if index < t.leaves.length then do
    let leaves := t.leaves.eraseIdx index
    let (stF, root) ← create_tree H t.arena leaves
    let rh ← nodeValue stF root
    pure ⟨stF, root, leaves, rh⟩
  else some t

/-- FullMerkleTree::update_leaf: only if the index is in range, overwrite
the hash stored in the leaf node and rebuild the tree; otherwise do
nothing. -/
def FullMerkleTree.update_leaf (H : Hasher α) (t : FullMerkleTree α)
    (index : Nat) (data : List Nat) : Option (FullMerkleTree α) :=
  match t.leaves.get? index with
  | some leafId => do
      let st := arenaModify t.arena leafId
        (fun nd => { nd with value := H.hashData data })
      let (stF, root) ← create_tree H st t.leaves
      let rh ← nodeValue stF root
      pure ⟨stF, root, t.leaves, rh⟩
  | none => some t

/-- Node::get_sibling(0) of src/tree.rs: read sibling reference 0 and
upgrade the weak reference; upgrading is modelled as an arena bounds
check (a dangling reference upgrades to nothing). -/
def get_sibling0 (st : List (RNode α)) (nd : RNode α) : Option Nat :=
  nd.siblings.bind (fun sibs =>
    (sibs.get? 0).bind (fun s => if s < st.length then some s else none))

/-- Node::get_parent of src/tree.rs: read the parent reference and upgrade
the weak reference. -/
def get_parent (st : List (RNode α)) (nd : RNode α) : Option Nat :=
  nd.parent.bind (fun p => if p < st.length then some p else none)

/-- The walk loop of FullMerkleTree::gen_proof, fuel-indexed: while the
current node has a sibling, push the sibling's hash and step to the
parent (whose unwrap, `none` here, would be the panic branch). -/
def full_proof_aux (st : List (RNode α)) : Nat → Nat → Option (List α)
  | 0, _ => none
  | fuel + 1, cur =>
    match st.get? cur with
    | none => none
    | some nd =>
      match get_sibling0 st nd with
      | none => some []
      | some s =>
        match nodeValue st s, get_parent st nd with
        | some sv, some p =>
            (full_proof_aux st fuel p).map (fun rest => sv :: rest)
        | _, _ => none

/-- FullMerkleTree::gen_proof: an out-of-range index is the explicit error
result; otherwise walk the materialised graph upwards from the leaf. -/
def FullMerkleTree.gen_proof (t : FullMerkleTree α) (leaf_idx : Nat) :
    Option (List α) :=
  match t.leaves.get? leaf_idx with
  | some leafId => full_proof_aux t.arena (t.arena.length + 1) leafId
  | none => none

/-- FullMerkleTree::verify_proof: the same replay loop as the compact
variant, compared against the full tree's cached root hash. -/
def FullMerkleTree.verify_proof [DecidableEq α] (H : Hasher α)
    (t : FullMerkleTree α) (leaf_hash : α) (leaf_idx : Nat)
    (proof : List α) : Bool :=
  verify_fold H leaf_hash leaf_idx proof == t.root_hash

/-- The sibling lookup of the compact gen_proof loop: position index+1 or
index-1 by parity, falling back to the node itself when that position does
not exist. -/
def sibling_lookup (vs : List α) (idx : Nat) : Option α :=
  (vs.get? (if is_even idx then idx + 1 else idx - 1)).orElse
    (fun _ => vs.get? idx)

/-- The node references of a level and the hash values they carry. -/
def idsHaveValues (st : List (RNode α)) : List Nat → List α → Prop
  | [], [] => True
  | i :: ids, v :: vs => nodeValue st i = some v ∧ idsHaveValues st ids vs
  | _, _ => False

theorem idsHaveValues_nil (st : List (RNode α)) (vs : List α) :
    idsHaveValues st [] vs ↔ vs = [] := by
  cases vs <;> simp [idsHaveValues]

theorem idsHaveValues_cons (st : List (RNode α)) (i : Nat) (ids : List Nat)
    (vs : List α) :
    idsHaveValues st (i :: ids) vs ↔
      ∃ v vs', vs = v :: vs' ∧ nodeValue st i = some v ∧
        idsHaveValues st ids vs' := by
  cases vs with
  | nil => simp [idsHaveValues]
  | cons v vs' =>
      simp only [idsHaveValues]
      constructor
      · rintro ⟨h1, h2⟩; exact ⟨v, vs', rfl, h1, h2⟩
      · rintro ⟨w, ws, heq, h1, h2⟩
        cases heq; exact ⟨h1, h2⟩

theorem nodeValue_some (st : List (RNode α)) (i : Nat) (v : α)
    (h : nodeValue st i = some v) :
    ∃ nd, st.get? i = some nd ∧ nd.value = v := by
  unfold nodeValue at h
  obtain ⟨nd, hnd, hv⟩ := Option.map_eq_some'.mp h
  exact ⟨nd, hnd, hv⟩

theorem nodeValue_some_lt (st : List (RNode α)) (i : Nat) (v : α)
    (h : nodeValue st i = some v) : i < st.length := by
  obtain ⟨nd, hnd, _⟩ := nodeValue_some st i v h
  exact (List.get?_eq_some.mp hnd).1

theorem idsHaveValues_length (st : List (RNode α)) :
    ∀ (ids : List Nat) (vs : List α), idsHaveValues st ids vs →
      ids.length = vs.length := by
  intro ids
  induction ids with
  | nil => intro vs h; rw [(idsHaveValues_nil st vs).mp h]; rfl
  | cons i ids ih =>
      intro vs h
      obtain ⟨v, vs', rfl, _, h2⟩ := (idsHaveValues_cons st i ids vs).mp h
      simp [ih vs' h2]

theorem idsHaveValues_mem_lt (st : List (RNode α)) :
    ∀ (ids : List Nat) (vs : List α), idsHaveValues st ids vs →
      ∀ i, i ∈ ids → i < st.length := by
  intro ids
  induction ids with
  | nil => intro vs _ i hi; cases hi
  | cons j ids ih =>
      intro vs h i hi
      obtain ⟨v, vs', rfl, h1, h2⟩ := (idsHaveValues_cons st j ids vs).mp h
      rcases List.mem_cons.mp hi with rfl | hi'
      · exact nodeValue_some_lt st i v h1
      · exact ih vs' h2 i hi'

theorem idsHaveValues_get? (st : List (RNode α)) :
    ∀ (ids : List Nat) (vs : List α), idsHaveValues st ids vs →
      ∀ k i, ids.get? k = some i →
        ∃ v, vs.get? k = some v ∧ nodeValue st i = some v := by
  intro ids
  induction ids with
  | nil => intro vs _ k i hk; simp [List.get?] at hk
  | cons j ids ih =>
      intro vs h k i hk
      obtain ⟨v, vs', rfl, h1, h2⟩ := (idsHaveValues_cons st j ids vs).mp h
      cases k with
      | zero => simp only [List.get?] at hk; cases hk; exact ⟨v, rfl, h1⟩
      | succ k => simpa using ih vs' h2 k i (by simpa using hk)

theorem idsHaveValues_of_preserve (st st' : List (RNode α))
    (hp : ∀ j, j < st.length → nodeValue st' j = nodeValue st j) :
    ∀ (ids : List Nat) (vs : List α), idsHaveValues st ids vs →
      idsHaveValues st' ids vs := by
  intro ids
  induction ids with
  | nil => intro vs h; rw [(idsHaveValues_nil st vs).mp h]; simp [idsHaveValues]
  | cons j ids ih =>
      intro vs h
      obtain ⟨v, vs', rfl, h1, h2⟩ := (idsHaveValues_cons st j ids vs).mp h
      have hj : j < st.length := by
        have := idsHaveValues_mem_lt st (j :: ids) (v :: vs') h j (by simp)
        exact this
      exact (idsHaveValues_cons st' j ids (v :: vs')).mpr
        ⟨v, vs', rfl, by rw [hp j hj]; exact h1, ih vs' h2⟩

theorem arenaModify_get?_self (st : List (RNode α)) (i : Nat) (nd : RNode α)
    (f : RNode α → RNode α) (h : st.get? i = some nd) :
    (arenaModify st i f).get? i = some (f nd) := by
  unfold arenaModify
  rw [h]
  have hi : i < st.length := (List.get?_eq_some.mp h).1
  simp [List.get?_set_eq, List.get?_eq_getElem?, hi]

theorem arenaModify_get?_ne (st : List (RNode α)) (i j : Nat)
    (f : RNode α → RNode α) (h : i ≠ j) :
    (arenaModify st i f).get? j = st.get? j := by
  unfold arenaModify
  cases hst : st.get? i with
  | none => rfl
  | some nd => rw [List.get?_set_ne _ _ h]

theorem arenaModify_length (st : List (RNode α)) (i : Nat)
    (f : RNode α → RNode α) :
    (arenaModify st i f).length = st.length := by
  unfold arenaModify
  cases hst : st.get? i with
  | none => rfl
  | some nd => simp

theorem create_node_spec (H : Hasher α) (st : List (RNode α)) (a b : Nat)
    (na nb : RNode α) (hab : a ≠ b)
    (ha : st.get? a = some na) (hb : st.get? b = some nb) :
    ∃ st', create_node H st a b = some (st', st.length) ∧
      st'.length = st.length + 1 ∧
      st'.get? a =
        some { na with parent := some st.length, siblings := some [b] } ∧
      st'.get? b =
        some { nb with parent := some st.length, siblings := some [a] } ∧
      st'.get? st.length =
        some { value := H.combine na.value nb.value, parent := none,
               children := some [a, b], siblings := none } ∧
      (∀ j, j ≠ a → j ≠ b → j ≠ st.length → st'.get? j = st.get? j) ∧
      (∀ j, j < st.length → nodeValue st' j = nodeValue st j) := by
  have hla : a < st.length := (List.get?_eq_some.mp ha).1
  have hlb : b < st.length := (List.get?_eq_some.mp hb).1
  have hva : nodeValue st a = some na.value := by unfold nodeValue; rw [ha]; rfl
  have hvb : nodeValue st b = some nb.value := by unfold nodeValue; rw [hb]; rfl
  set P : RNode α := { value := H.combine na.value nb.value, parent := none,
                       children := some [a, b], siblings := none } with hP
  set st1 : List (RNode α) := st ++ [P] with hst1
  set fa : RNode α → RNode α :=
    fun nd => { nd with parent := some st.length, siblings := some [b] } with hfa
  set fb : RNode α → RNode α :=
    fun nd => { nd with parent := some st.length, siblings := some [a] } with hfb2
  have hl1 : st1.length = st.length + 1 := by simp [hst1]
  have h1a : st1.get? a = some na := by
    rw [hst1, List.get?_append hla]; exact ha
  have h1b : st1.get? b = some nb := by
    rw [hst1, List.get?_append hlb]; exact hb
  have h1p : st1.get? st.length = some P := by
    rw [hst1]; exact List.get?_concat_length st P
  have hfe : [a, b].filter (fun o => o != a) = [b] := by
    have h1 : (a != a) = false := by simp
    have h2 : (b != a) = true := by simp [bne_iff_ne, Ne.symm hab]
    simp [List.filter, h1, h2]
  have hfb : [a, b].filter (fun o => o != b) = [a] := by
    have h1 : (b != b) = false := by simp
    have h2 : (a != b) = true := by simp [bne_iff_ne, hab]
    simp [List.filter, h1, h2]
  have hsps : set_parent_and_siblings st1 st.length [a, b] =
      arenaModify (arenaModify st1 a fa) b fb := by
    unfold set_parent_and_siblings
    simp only [List.foldl, hfe, hfb, hfa, hfb2]
  have h2b : (arenaModify st1 a fa).get? b = some nb := by
    rw [arenaModify_get?_ne _ _ _ _ hab]; exact h1b
  refine ⟨set_parent_and_siblings st1 st.length [a, b], ?_, ?_, ?_, ?_, ?_, ?_, ?_⟩
  · unfold create_node
    rw [hva, hvb]
    rfl
  · rw [hsps, arenaModify_length, arenaModify_length, hl1]
  · rw [hsps, arenaModify_get?_ne _ _ _ _ (Ne.symm hab),
      arenaModify_get?_self _ _ na _ h1a]
  · rw [hsps, arenaModify_get?_self _ _ nb _ h2b]
  · have hna : a ≠ st.length := by omega
    have hnb : b ≠ st.length := by omega
    rw [hsps, arenaModify_get?_ne _ _ _ _ hnb, arenaModify_get?_ne _ _ _ _ hna]
    exact h1p
  · intro j hja hjb hjp
    rw [hsps, arenaModify_get?_ne _ _ _ _ (fun h => hjb h.symm),
      arenaModify_get?_ne _ _ _ _ (fun h => hja h.symm), hst1]
    rcases Nat.lt_or_ge j st.length with hj | hj
    · exact List.get?_append hj
    · have hj2 : st.length < j := by omega
      rw [List.get?_eq_none.mpr (by simp; omega), List.get?_eq_none.mpr (by omega)]
  · intro j hj
    by_cases hja : j = a
    · subst hja
      rw [hsps]
      unfold nodeValue
      rw [arenaModify_get?_ne _ _ _ _ (Ne.symm hab),
        arenaModify_get?_self _ _ na _ h1a, ha]
      rfl
    · by_cases hjb : j = b
      · subst hjb
        rw [hsps]
        unfold nodeValue
        rw [arenaModify_get?_self _ _ nb _ h2b, hb]
        rfl
      · rw [hsps]
        unfold nodeValue
        rw [arenaModify_get?_ne _ _ _ _ (fun h => hjb h.symm),
          arenaModify_get?_ne _ _ _ _ (fun h => hja h.symm), hst1,
          List.get?_append hj]

theorem clone_node_spec (st : List (RNode α)) (a : Nat) (na : RNode α)
    (ha : st.get? a = some na) :
    clone_node st a = some (st ++ [na], st.length) := by
  unfold clone_node
  rw [ha]
  rfl

theorem list_pair_induction {β : Type} (motive : List β → Prop)
    (h0 : motive []) (h1 : ∀ a, motive [a])
    (h2 : ∀ a b rest, motive rest → motive (a :: b :: rest)) :
    ∀ l, motive l
  | [] => h0
  | [a] => h1 a
  | a :: b :: rest => h2 a b rest (list_pair_induction motive h0 h1 h2 rest)

theorem is_even_add_two (n : Nat) : is_even (n + 2) = is_even n := by
  simp [is_even, Nat.add_mod_right]

theorem sibling_lookup_cons_cons (x y : α) (l : List α) (n : Nat) :
    sibling_lookup (x :: y :: l) (n + 2) = sibling_lookup l n := by
  unfold sibling_lookup
  rw [is_even_add_two]
  by_cases he : is_even n
  · simp only [he, if_true]
    have h1 : n + 2 + 1 = n + 1 + 1 + 1 := by omega
    rw [h1]
    simp [List.get?]
  · simp only [he, if_false]
    have hodd : n % 2 = 1 := by
      simp [is_even] at he
      omega
    have h1 : n + 2 - 1 = n - 1 + 1 + 1 := by omega
    rw [h1]
    simp [List.get?]

theorem sibling_lookup_some (vs : List α) (idx : Nat) (hidx : idx < vs.length) :
    ∃ sv, sibling_lookup vs idx = some sv := by
  unfold sibling_lookup
  cases hs : vs.get? (if is_even idx then idx + 1 else idx - 1) with
  | some s => exact ⟨s, rfl⟩
  | none =>
      obtain ⟨v, hv⟩ : ∃ v, vs.get? idx = some v :=
        ⟨_, List.get?_eq_some.mpr ⟨hidx, rfl⟩⟩
      exact ⟨v, hv⟩

theorem nodeValue_append (st extra : List (RNode α)) (j : Nat)
    (hj : j < st.length) : nodeValue (st ++ extra) j = nodeValue st j := by
  unfold nodeValue
  rw [List.get?_append hj]

theorem build_level_spec (H : Hasher α) :
    ∀ (ids : List Nat), ids.Pairwise (· < ·) →
      ∀ (st : List (RNode α)) (vs : List α), idsHaveValues st ids vs →
      ∃ st' ids',
        build_level H st ids = some (st', ids') ∧
        st.length ≤ st'.length ∧
        (∀ j, j < st.length → j ∉ ids → st'.get? j = st.get? j) ∧
        (∀ j, j < st.length → nodeValue st' j = nodeValue st j) ∧
        (∀ i, i ∈ ids' → st.length ≤ i ∧ i < st'.length) ∧
        ids'.Pairwise (· < ·) ∧
        (∀ i, i ∈ ids' → ∃ nd, st'.get? i = some nd ∧ nd.siblings = none) ∧
        idsHaveValues st' ids' (get_parent_nodes H vs) ∧
        (∀ idx i, ids.get? idx = some i →
          ∃ nd s p, st'.get? i = some nd ∧ nd.siblings = some [s] ∧
            nd.parent = some p ∧ s < st'.length ∧
            nodeValue st' s = sibling_lookup vs idx ∧
            ids'.get? (idx / 2) = some p) := by
  intro ids
  induction ids using list_pair_induction with
  | h0 =>
      intro _ st vs hvals
      rw [(idsHaveValues_nil st vs).mp hvals]
      refine ⟨st, [], rfl, le_refl _, fun j _ _ => rfl, fun j _ => rfl,
        fun i hi => absurd hi (List.not_mem_nil i), List.Pairwise.nil,
        fun i hi => absurd hi (List.not_mem_nil i), ?_, ?_⟩
      · simp [get_parent_nodes, idsHaveValues]
      · intro idx i h
        simp [List.get?] at h
  | h1 a =>
      intro _ st vs hvals
      obtain ⟨va, vs', rfl, hva, hnil⟩ := (idsHaveValues_cons st a [] vs).mp hvals
      have h0 := (idsHaveValues_nil st vs').mp hnil
      subst h0
      obtain ⟨na, ha, hnav⟩ := nodeValue_some st a va hva
      have hla : a < st.length := (List.get?_eq_some.mp ha).1
      have hclone := clone_node_spec st a na ha
      have h1a : (st ++ [na]).get? a = some na := by
        rw [List.get?_append hla]; exact ha
      have h1c : (st ++ [na]).get? st.length = some na :=
        List.get?_concat_length st na
      have hac : a ≠ st.length := by omega
      obtain ⟨st2, hcreate, hlen2, h2a, h2c, h2p, h2other, h2val⟩ :=
        create_node_spec H (st ++ [na]) a st.length na na hac h1a h1c
      have hl1 : (st ++ [na]).length = st.length + 1 := by simp
      have hbl : build_level H st [a] =
          some (st2, [(st ++ [na]).length]) := by
        unfold build_level
        rw [hclone]
        show (create_node H (st ++ [na]) a st.length).bind _ = _
        rw [hcreate]
        rfl
      refine ⟨st2, [(st ++ [na]).length], hbl, by omega, ?_, ?_, ?_, ?_, ?_,
        ?_, ?_⟩
      · intro j hj hjm
        have hja : j ≠ a := by simpa using hjm
        rw [h2other j hja (by omega) (by omega), List.get?_append hj]
      · intro j hj
        rw [h2val j (by omega), nodeValue_append st [na] j hj]
      · intro i hi
        have : i = (st ++ [na]).length := by simpa using hi
        subst this
        omega
      · simp
      · intro i hi
        have : i = (st ++ [na]).length := by simpa using hi
        subst this
        exact ⟨_, h2p, rfl⟩
      · simp only [get_parent_nodes]
        refine (idsHaveValues_cons _ _ _ _).mpr
          ⟨H.combine va va, [], rfl, ?_, by simp [idsHaveValues]⟩
        unfold nodeValue
        rw [h2p]
        simp [hnav]
      · intro idx i hidx
        match idx, hidx with
        | 0, hidx =>
            simp only [List.get?] at hidx
            cases hidx
            refine ⟨_, st.length, (st ++ [na]).length, h2a, rfl, rfl,
              by omega, ?_, by simp⟩
            have hsl : sibling_lookup [va] 0 = some va := by
              unfold sibling_lookup
              simp [is_even, List.get?]
            rw [hsl]
            unfold nodeValue
            rw [h2c]
            simp [hnav]
        | n + 1, hidx =>
            simp [List.get?] at hidx
  | h2 a b rest ih =>
      intro hpw st vs hvals
      obtain ⟨hab', hpw1⟩ := List.pairwise_cons.mp hpw
      obtain ⟨hbr, hpwr⟩ := List.pairwise_cons.mp hpw1
      have hab : a ≠ b := (hab' b (by simp)).ne
      have hanr : a ∉ rest := fun hmem => by
        have := hab' a (List.mem_cons_of_mem b hmem); omega
      have hbnr : b ∉ rest := fun hmem => by
        have := hbr b hmem; omega
      obtain ⟨va, vs1, rfl, hva, hvals1⟩ :=
        (idsHaveValues_cons st a (b :: rest) vs).mp hvals
      obtain ⟨vb, vrest, rfl, hvb, hvrest⟩ :=
        (idsHaveValues_cons st b rest vs1).mp hvals1
      obtain ⟨na, ha, hnav⟩ := nodeValue_some st a va hva
      obtain ⟨nb, hb, hnbv⟩ := nodeValue_some st b vb hvb
      have hla : a < st.length := (List.get?_eq_some.mp ha).1
      have hlb : b < st.length := (List.get?_eq_some.mp hb).1
      obtain ⟨st1, hcreate, hlen1, h1a, h1b, h1p, h1other, h1val⟩ :=
        create_node_spec H st a b na nb hab ha hb
      have hrestlt : ∀ i, i ∈ rest → i < st.length :=
        idsHaveValues_mem_lt st rest vrest hvrest
      have hvrest1 : idsHaveValues st1 rest vrest :=
        idsHaveValues_of_preserve st st1 h1val rest vrest hvrest
      obtain ⟨st2, ids2, hbl2, hlen2, hpres2, hval2, hbounds2, hpw2, hsib2,
        hvals2, hwalk2⟩ := ih hpwr st1 vrest hvrest1
      have hpnr : st.length ∉ rest := fun hmem => by
        have := hrestlt st.length hmem; omega
      have hbl : build_level H st (a :: b :: rest) =
          some (st2, st.length :: ids2) := by
        unfold build_level
        rw [hcreate]
        show (build_level H st1 rest).bind _ = _
        rw [hbl2]
        rfl
      have h2get_a : st2.get? a =
          some { na with parent := some st.length, siblings := some [b] } := by
        rw [hpres2 a (by omega) hanr]; exact h1a
      have h2get_b : st2.get? b =
          some { nb with parent := some st.length, siblings := some [a] } := by
        rw [hpres2 b (by omega) hbnr]; exact h1b
      have h2get_p : st2.get? st.length =
          some { value := H.combine na.value nb.value, parent := none,
                 children := some [a, b], siblings := none } := by
        rw [hpres2 st.length (by omega) hpnr]; exact h1p
      refine ⟨st2, st.length :: ids2, hbl, by omega, ?_, ?_, ?_, ?_, ?_, ?_, ?_⟩
      · intro j hj hjm
        have hja : j ≠ a := fun h => hjm (h ▸ List.mem_cons_self a (b :: rest))
        have hjb : j ≠ b := fun h => hjm (by simp [h])
        have hjr : j ∉ rest := fun h => hjm (by simp [h])
        rw [hpres2 j (by omega) hjr, h1other j hja hjb (by omega)]
      · intro j hj
        rw [hval2 j (by omega), h1val j hj]
      · intro i hi
        rcases List.mem_cons.mp hi with rfl | hi2
        · omega
        · have := hbounds2 i hi2; omega
      · refine List.pairwise_cons.mpr ⟨?_, hpw2⟩
        intro y hy
        have := hbounds2 y hy
        omega
      · intro i hi
        rcases List.mem_cons.mp hi with rfl | hi2
        · exact ⟨_, h2get_p, rfl⟩
        · exact hsib2 i hi2
      · simp only [get_parent_nodes]
        refine (idsHaveValues_cons _ _ _ _).mpr
          ⟨H.combine va vb, get_parent_nodes H vrest, rfl, ?_, hvals2⟩
        unfold nodeValue
        rw [h2get_p]
        simp [hnav, hnbv]
      · intro idx i hidx
        match idx, hidx with
        | 0, hidx =>
            simp only [List.get?] at hidx
            cases hidx
            refine ⟨_, b, st.length, h2get_a, rfl, rfl, by omega, ?_, by simp⟩
            have hsl : sibling_lookup (va :: vb :: vrest) 0 = some vb := by
              unfold sibling_lookup
              simp [is_even, List.get?]
            rw [hsl, hval2 b (by omega), h1val b hlb]
            unfold nodeValue
            rw [hb]
            simp [hnbv]
        | 1, hidx =>
            simp only [List.get?] at hidx
            cases hidx
            refine ⟨_, a, st.length, h2get_b, rfl, rfl, by omega, ?_, by simp⟩
            have hsl : sibling_lookup (va :: vb :: vrest) 1 = some va := by
              unfold sibling_lookup
              simp [is_even, List.get?]
            rw [hsl, hval2 a (by omega), h1val a hla]
            unfold nodeValue
            rw [ha]
            simp [hnav]
        | n + 2, hidx =>
            have hidx' : rest.get? n = some i := by simpa [List.get?] using hidx
            obtain ⟨nd, s, p, hnd, hsib, hpar, hs, hsv, hp⟩ := hwalk2 n i hidx'
            refine ⟨nd, s, p, hnd, hsib, hpar, hs, ?_, ?_⟩
            · rw [sibling_lookup_cons_cons]
              exact hsv
            · have hdiv : (n + 2) / 2 = n / 2 + 1 := by omega
              rw [hdiv]
              simpa [List.get?] using hp

theorem gen_proof_aux_fuel (H : Hasher α) :
    ∀ f1 f2 (nodes : List α) (idx : Nat),
      1 ≤ nodes.length → nodes.length ≤ f1 → nodes.length ≤ f2 →
      gen_proof_aux H f1 nodes idx = gen_proof_aux H f2 nodes idx := by
  intro f1
  induction f1 with
  | zero => intro f2 nodes idx h1 h2 h3; omega
  | succ f ih =>
      intro f2 nodes idx h1 h2 h3
      cases f2 with
      | zero => omega
      | succ g =>
          rw [gen_proof_aux, gen_proof_aux]
          by_cases hlen : 1 < nodes.length
          · simp only [hlen, if_true]
            have hrec := ih g (get_parent_nodes H nodes) (idx / 2)
              (by rw [get_parent_nodes_length]; omega)
              (by rw [get_parent_nodes_length]; omega)
              (by rw [get_parent_nodes_length]; omega)
            simp only [hrec]
          · simp only [hlen, if_false]

theorem create_tree_aux_spec (H : Hasher α) :
    ∀ fuel (ids : List Nat) (st : List (RNode α)) (vs : List α),
      ids.Pairwise (· < ·) →
      idsHaveValues st ids vs →
      (∀ i, i ∈ ids → ∃ nd, st.get? i = some nd ∧ nd.siblings = none) →
      1 ≤ ids.length → ids.length ≤ fuel →
      ∃ stF root,
        create_tree_aux H fuel st ids = some (stF, root) ∧
        st.length ≤ stF.length ∧
        (∀ j, j < st.length → nodeValue stF j = nodeValue st j) ∧
        (∀ j, j < st.length → j ∉ ids → stF.get? j = st.get? j) ∧
        specReferenceRootAux H vs = nodeValue stF root ∧
        (∀ idx i, ids.get? idx = some i → ∀ wfuel, vs.length ≤ wfuel →
          full_proof_aux stF wfuel i = gen_proof_aux H wfuel vs idx) := by
  intro fuel
  induction fuel with
  | zero => intro ids st vs _ _ _ h1 h2; omega
  | succ f ih =>
      intro ids st vs hpw hvals hsibnone h1 h2
      have hlenvs : ids.length = vs.length := idsHaveValues_length st ids vs hvals
      by_cases hone : ids.length = 1
      · obtain ⟨i0, rfl⟩ := List.length_eq_one.mp hone
        obtain ⟨v0, vs', rfl, hv0, hnil⟩ :=
          (idsHaveValues_cons st i0 [] vs).mp hvals
        have hnil2 := (idsHaveValues_nil st vs').mp hnil
        subst hnil2
        obtain ⟨nd0, hnd0, hsib0⟩ := hsibnone i0 (by simp)
        refine ⟨st, i0, ?_, le_refl _, fun j _ => rfl, fun j _ _ => rfl, ?_, ?_⟩
        · rw [create_tree_aux]
          simp [List.get?]
        · rw [hv0]
          simp [specReferenceRootAux]
        · intro idx i hidx wfuel hwf
          match idx, hidx with
          | 0, hidx =>
              simp only [List.get?] at hidx
              cases hidx
              cases wfuel with
              | zero => simp at hwf
              | succ w =>
                  have hgs0 : get_sibling0 st nd0 = none := by
                    unfold get_sibling0
                    rw [hsib0]
                    rfl
                  rw [full_proof_aux, gen_proof_aux]
                  simp only [hnd0, hgs0]
                  simp
          | n + 1, hidx => simp [List.get?] at hidx
      · have h2le : 2 ≤ ids.length := by omega
        obtain ⟨st1, ids1, hbl, hlen1, hpres1, hval1, hbounds1, hpw1, hsib1,
          hvals1, hwalk1⟩ := build_level_spec H ids hpw st vs hvals
        have hlen_ids1 : ids1.length = (get_parent_nodes H vs).length :=
          idsHaveValues_length st1 ids1 _ hvals1
        have hgpn : (get_parent_nodes H vs).length = (vs.length + 1) / 2 :=
          get_parent_nodes_length H vs
        obtain ⟨stF, root, hct, hlenF, hvalF, hpresF, hspecF, hwalkF⟩ :=
          ih ids1 st1 (get_parent_nodes H vs) hpw1 hvals1 hsib1
            (by omega) (by omega)
        have hctfull : create_tree_aux H (f + 1) st ids = some (stF, root) := by
          rw [create_tree_aux, if_neg hone, hbl]
          exact hct
        refine ⟨stF, root, hctfull, by omega, ?_, ?_, ?_, ?_⟩
        · intro j hj
          rw [hvalF j (by omega), hval1 j hj]
        · intro j hj hjm
          have hj1 : j ∉ ids1 := fun hmem => by
            have := hbounds1 j hmem
            omega
          rw [hpresF j (by omega) hj1, hpres1 j hj hjm]
        · have hstep : specReferenceRootAux H vs =
              specReferenceRootAux H (get_parent_nodes H vs) := by
            rw [specReferenceRootAux_step H vs (by omega),
              get_parent_nodes_eq_spec]
          rw [hstep, hspecF]
        · intro idx i hidx wfuel hwf
          have hidxlt : idx < ids.length := (List.get?_eq_some.mp hidx).1
          obtain ⟨nd, s, p, hnd, hsib, hpar, hslt, hsv, hp⟩ := hwalk1 idx i hidx
          have hilt : i < st.length :=
            idsHaveValues_mem_lt st ids vs hvals i (List.get?_mem hidx)
          have hini1 : i ∉ ids1 := fun hmem => by
            have := hbounds1 i hmem
            omega
          have hndF : stF.get? i = some nd := by
            rw [hpresF i (by omega) hini1]
            exact hnd
          obtain ⟨sv, hsv2⟩ := sibling_lookup_some vs idx (by omega)
          have hsvF : nodeValue stF s = some sv := by
            rw [hvalF s hslt, hsv, hsv2]
          have hplt : p < st1.length := (hbounds1 p (List.get?_mem hp)).2
          cases wfuel with
          | zero => omega
          | succ w =>
              have hw : (get_parent_nodes H vs).length ≤ w := by
                rw [hgpn]
                omega
              have hgs : get_sibling0 stF nd = some s := by
                unfold get_sibling0
                rw [hsib]
                have : s < stF.length := by omega
                simp [List.get?, this]
              have hgp : get_parent stF nd = some p := by
                unfold get_parent
                rw [hpar]
                have : p < stF.length := by omega
                simp [this]
              have hrec := hwalkF (idx / 2) p hp w hw
              rw [full_proof_aux, gen_proof_aux]
              simp only [hndF, hgs, hsvF, hgp, hrec,
                show 1 < vs.length from by omega, if_true]
              have hsv3 : (vs.get? (if is_even idx then idx + 1 else idx - 1)).orElse
                  (fun _ => vs.get? idx) = some sv := hsv2
              rw [hsv3]

theorem specReferenceRootAux_isSome (H : Hasher α) (vs : List α) :
    1 ≤ vs.length → ∃ r, specReferenceRootAux H vs = some r := by
  induction vs using specReferenceRootAux.induct H with
  | case1 => intro h; simp at h
  | case2 a => intro _; exact ⟨a, by simp [specReferenceRootAux]⟩
  | case3 a b rest ih =>
      intro _
      rw [specReferenceRootAux]
      exact ih (by rw [specReduceLevel_length]; simp; omega)

theorem idsHaveValues_range' (st2 : List (RNode α)) :
    ∀ st1 : List (RNode α),
      idsHaveValues (st1 ++ st2) (List.range' st1.length st2.length)
        (st2.map (fun nd => nd.value)) := by
  induction st2 with
  | nil => intro st1; simp [List.range', idsHaveValues]
  | cons nd rest ih =>
      intro st1
      simp only [List.length_cons, List.range', List.map]
      refine (idsHaveValues_cons _ _ _ _).mpr
        ⟨nd.value, rest.map (fun nd => nd.value), rfl, ?_, ?_⟩
      · unfold nodeValue
        rw [List.get?_append_right (le_refl _)]
        simp
      · have h := ih (st1 ++ [nd])
        simpa [List.append_assoc] using h

theorem compact_create_spec (H : Hasher α) (data : List (List Nat))
    (hne : data ≠ []) :
    ∃ t : CompactMerkleTree α,
      CompactMerkleTree.create H data = some t ∧
      t.leaves = data.map H.hashData ∧
      specReferenceRootAux H (data.map H.hashData) = some t.root_hash := by
  have hlen : 1 ≤ (data.map H.hashData).length := by
    simp [List.length_map]
    exact List.length_pos.mpr hne
  obtain ⟨r, hr⟩ := specReferenceRootAux_isSome H (data.map H.hashData) hlen
  have hcr : calculate_root H (data.map H.hashData) = some r := by
    rw [calculate_root_eq_spec H _ hlen]
    exact hr
  refine ⟨⟨data.map H.hashData, r⟩, ?_, rfl, hr⟩
  unfold CompactMerkleTree.create
  rw [if_neg (by simp [hne])]
  simp only [hcr, Option.map_some']

theorem full_create_spec (H : Hasher α) (data : List (List Nat))
    (hne : data ≠ []) :
    ∃ t : FullMerkleTree α,
      FullMerkleTree.create H data = some t ∧
      t.leaves = List.range data.length ∧
      data.length ≤ t.arena.length ∧
      specReferenceRootAux H (data.map H.hashData) = some t.root_hash ∧
      (∀ idx, idx < data.length →
        nodeValue t.arena idx = (data.map H.hashData).get? idx) ∧
      (∀ idx, idx < data.length → ∀ wfuel, data.length ≤ wfuel →
        full_proof_aux t.arena wfuel idx =
          gen_proof_aux H wfuel (data.map H.hashData) idx) := by
  set vs := data.map H.hashData with hvs
  set st0 : List (RNode α) :=
    data.map (fun d => { value := H.hashData d, parent := none,
                         children := none, siblings := none }) with hst0
  have hnpos : 0 < data.length := List.length_pos.mpr hne
  have hl0 : st0.length = data.length := by simp [hst0]
  have hvals0 : idsHaveValues st0 (List.range data.length) vs := by
    have h := idsHaveValues_range' st0 []
    simp only [List.nil_append, List.length_nil] at h
    rw [← List.range_eq_range'] at h
    have hmap : st0.map (fun nd => nd.value) = vs := by
      simp [hst0, hvs, List.map_map, Function.comp]
    rw [hl0, hmap] at h
    exact h
  have hpw0 : (List.range data.length).Pairwise (· < ·) :=
    List.pairwise_lt_range data.length
  have hsib0 : ∀ i, i ∈ List.range data.length →
      ∃ nd, st0.get? i = some nd ∧ nd.siblings = none := by
    intro i hi
    have hilt : i < data.length := List.mem_range.mp hi
    obtain ⟨d, hd⟩ : ∃ d, data.get? i = some d :=
      ⟨_, List.get?_eq_some.mpr ⟨hilt, rfl⟩⟩
    refine ⟨{ value := H.hashData d, parent := none, children := none,
              siblings := none }, ?_, rfl⟩
    rw [hst0, List.get?_map, hd]
    rfl
  have hvslen : vs.length = data.length := by simp [hvs]
  obtain ⟨stF, root, hct, hlenF, hvalF, hpresF, hspecF, hwalkF⟩ :=
    create_tree_aux_spec H (data.length + 1) (List.range data.length) st0 vs
      hpw0 hvals0 hsib0 (by simp; omega) (by simp)
  have hct2 : create_tree H st0 (List.range data.length) = some (stF, root) := by
    unfold create_tree
    rw [List.length_range]
    exact hct
  obtain ⟨r, hr⟩ := specReferenceRootAux_isSome H vs (by omega)
  have hnv : nodeValue stF root = some r := by rw [← hspecF]; exact hr
  refine ⟨⟨stF, root, List.range data.length, r⟩, ?_, rfl,
    (show data.length ≤ stF.length by omega), hr, ?_, ?_⟩
  · unfold FullMerkleTree.create
    rw [if_neg (by simp [hne])]
    show (create_tree H st0 (List.range data.length)).bind _ = _
    rw [hct2]
    show (nodeValue stF root).bind _ = _
    rw [hnv]
    rfl
  · intro idx hidx
    have h1 : nodeValue stF idx = nodeValue st0 idx := hvalF idx (by omega)
    obtain ⟨v, hv1, hv2⟩ := idsHaveValues_get? st0 (List.range data.length) vs
      hvals0 idx idx (List.get?_range hidx)
    rw [h1, hv2, hv1]
  · intro idx hidx wfuel hwf
    exact hwalkF idx idx (List.get?_range hidx) wfuel (by omega)

/-- A concrete hash capability used to evaluate the embedding on explicit
inputs: a datum hashes to itself and combining concatenates. -/
def listHasher : Hasher (List Nat) := ⟨fun d => d, fun a b => a ++ b⟩

/-- C1: for every non-empty item list, the root hash stored after
construction equals the reference computation of specification section 4.2
(hash every item to a leaf hash, then repeatedly reduce the level pairwise,
duplicating a lone trailing element, until one hash remains), in both the
compact and the full variant. -/
theorem C1_root_matches_reference (H : Hasher α) (data : List (List Nat))
    (hne : data ≠ []) :
    ∃ r, specReferenceRoot H data = some r ∧
      (∃ tc : CompactMerkleTree α,
        CompactMerkleTree.create H data = some tc ∧ tc.root_hash = r) ∧
      (∃ tf : FullMerkleTree α,
        FullMerkleTree.create H data = some tf ∧ tf.root_hash = r) := by
  obtain ⟨tc, hc1, hc2, hc3⟩ := compact_create_spec H data hne
  obtain ⟨tf, hf1, _, _, hf4, _, _⟩ := full_create_spec H data hne
  refine ⟨tc.root_hash, ?_, ⟨tc, hc1, rfl⟩, ⟨tf, hf1, ?_⟩⟩
  · unfold specReferenceRoot
    exact hc3
  · exact Option.some.inj (hf4.symm.trans hc3)

/-- Witness for C1 at a concrete input. -/
theorem C1_root_matches_reference_witness :
    (([[0], [1]] : List (List Nat)) ≠ []) ∧
    (∃ r, specReferenceRoot listHasher [[0], [1]] = some r ∧
      (∃ tc : CompactMerkleTree (List Nat),
        CompactMerkleTree.create listHasher [[0], [1]] = some tc ∧
        tc.root_hash = r) ∧
      (∃ tf : FullMerkleTree (List Nat),
        FullMerkleTree.create listHasher [[0], [1]] = some tf ∧
        tf.root_hash = r)) :=
  ⟨by decide, C1_root_matches_reference listHasher [[0], [1]] (by decide)⟩

/-- C2: for every tree constructed from a non-empty item list and every
valid leaf index, verifying the generated proof against that leaf's stored
hash returns true, in both variants. -/
theorem C2_roundtrip_verifies [DecidableEq α] (H : Hasher α)
    (data : List (List Nat)) (i : Nat) (hne : data ≠ [])
    (hi : i < data.length) :
    (∃ tc lh p, CompactMerkleTree.create H data = some tc ∧
      tc.leaves.get? i = some lh ∧
      tc.gen_proof H i = some p ∧
      tc.verify_proof H lh i p = true) ∧
    (∃ tf lid lh p, FullMerkleTree.create H data = some tf ∧
      tf.leaves.get? i = some lid ∧
      nodeValue tf.arena lid = some lh ∧
      tf.gen_proof i = some p ∧
      tf.verify_proof H lh i p = true) := by
  have hvslen : (data.map H.hashData).length = data.length := by simp
  obtain ⟨lh, hlh⟩ : ∃ lh, (data.map H.hashData).get? i = some lh :=
    ⟨_, List.get?_eq_some.mpr ⟨by omega, rfl⟩⟩
  constructor
  · obtain ⟨tc, hc1, hc2, hc3⟩ := compact_create_spec H data hne
    obtain ⟨p, hp, hplen, hpfold⟩ := gen_proof_aux_spec H
      (data.map H.hashData).length (data.map H.hashData) i lh (le_refl _) hlh
    have hfold : verify_fold H lh i p = tc.root_hash :=
      Option.some.inj ((hpfold.symm).trans hc3)
    refine ⟨tc, lh, p, hc1, by rw [hc2]; exact hlh, ?_, ?_⟩
    · unfold CompactMerkleTree.gen_proof
      rw [if_pos (by rw [hc2]; omega), hc2]
      exact hp
    · unfold CompactMerkleTree.verify_proof
      rw [hfold]
      simp
  · obtain ⟨tf, hf1, hf2, hf3, hf4, hf5, hf6⟩ := full_create_spec H data hne
    obtain ⟨p, hp, hplen, hpfold⟩ := gen_proof_aux_spec H
      (tf.arena.length + 1) (data.map H.hashData) i lh (by omega) hlh
    have hfold : verify_fold H lh i p = tf.root_hash :=
      Option.some.inj ((hpfold.symm).trans hf4)
    refine ⟨tf, i, lh, p, hf1, by rw [hf2]; exact List.get?_range hi, ?_, ?_, ?_⟩
    · rw [hf5 i hi]
      exact hlh
    · unfold FullMerkleTree.gen_proof
      rw [hf2, List.get?_range hi]
      show full_proof_aux tf.arena (tf.arena.length + 1) i = some p
      rw [hf6 i hi (tf.arena.length + 1) (by omega)]
      exact hp
    · unfold FullMerkleTree.verify_proof
      rw [hfold]
      simp

/-- Witness for C2 at a concrete input. -/
theorem C2_roundtrip_verifies_witness :
    (([[0], [1], [2]] : List (List Nat)) ≠ []) ∧ 2 < 3 ∧
    ((∃ tc lh p,
      CompactMerkleTree.create listHasher [[0], [1], [2]] = some tc ∧
      tc.leaves.get? 2 = some lh ∧
      tc.gen_proof listHasher 2 = some p ∧
      tc.verify_proof listHasher lh 2 p = true) ∧
    (∃ tf lid lh p,
      FullMerkleTree.create listHasher [[0], [1], [2]] = some tf ∧
      tf.leaves.get? 2 = some lid ∧
      nodeValue tf.arena lid = some lh ∧
      tf.gen_proof 2 = some p ∧
      tf.verify_proof listHasher lh 2 p = true)) :=
  ⟨by decide, by decide,
    C2_roundtrip_verifies listHasher [[0], [1], [2]] 2 (by decide) (by decide)⟩

/-- C3: the full and compact variants are externally equivalent: from the
same non-empty item list under the same hash capability both compute the
same root hash, and for every valid leaf index both gen_proof results are
the same ordered hash sequence. -/
theorem C3_variants_equivalent (H : Hasher α) (data : List (List Nat))
    (hne : data ≠ []) :
    ∃ tc tf, CompactMerkleTree.create H data = some tc ∧
      FullMerkleTree.create H data = some tf ∧
      tf.root_hash = tc.root_hash ∧
      (∀ i, i < data.length → tf.gen_proof i = tc.gen_proof H i) := by
  obtain ⟨tc, hc1, hc2, hc3⟩ := compact_create_spec H data hne
  obtain ⟨tf, hf1, hf2, hf3, hf4, hf5, hf6⟩ := full_create_spec H data hne
  have hnpos : 0 < data.length := List.length_pos.mpr hne
  refine ⟨tc, tf, hc1, hf1, Option.some.inj (hf4.symm.trans hc3), ?_⟩
  intro i hi
  have h1 : tf.gen_proof i =
      gen_proof_aux H (tf.arena.length + 1) (data.map H.hashData) i := by
    unfold FullMerkleTree.gen_proof
    rw [hf2, List.get?_range hi]
    show full_proof_aux tf.arena (tf.arena.length + 1) i = _
    exact hf6 i hi (tf.arena.length + 1) (by omega)
  have h2 : tc.gen_proof H i =
      gen_proof_aux H (data.map H.hashData).length (data.map H.hashData) i := by
    unfold CompactMerkleTree.gen_proof
    rw [if_pos (by rw [hc2]; simp; omega), hc2]
  rw [h1, h2]
  exact gen_proof_aux_fuel H (tf.arena.length + 1) (data.map H.hashData).length
    (data.map H.hashData) i (by simp; omega) (by simp; omega) (by simp)

/-- Witness for C3 at a concrete input. -/
theorem C3_variants_equivalent_witness :
    (([[0], [1], [2]] : List (List Nat)) ≠ []) ∧
    (∃ tc tf,
      CompactMerkleTree.create listHasher [[0], [1], [2]] = some tc ∧
      FullMerkleTree.create listHasher [[0], [1], [2]] = some tf ∧
      tf.root_hash = tc.root_hash ∧
      (∀ i, i < ([[0], [1], [2]] : List (List Nat)).length →
        tf.gen_proof i = tc.gen_proof listHasher i)) :=
  ⟨by decide, C3_variants_equivalent listHasher [[0], [1], [2]] (by decide)⟩

/-- C4, amended to match src/mk/full.rs: when a level with an odd count is
reduced, the lone trailing node is paired with a freshly allocated clone of
itself (a duplicate node carrying the same hash): the parent created for it
owns two child references (the original and the clone), and the lone child
receives a parent link and a single sibling reference, pointing at the
clone. -/
theorem C4_lone_node_gets_clone_sibling (H : Hasher α) :
    ∀ (ids : List Nat), ids.Pairwise (· < ·) →
      ∀ (st : List (RNode α)) (vs : List α), idsHaveValues st ids vs →
      ids.length % 2 = 1 →
      ∀ a, ids.getLast? = some a →
      ∃ st' ids' c pid na,
        build_level H st ids = some (st', ids') ∧
        st.get? a = some na ∧
        st.length ≤ c ∧
        (∃ ndp, st'.get? pid = some ndp ∧ ndp.children = some [a, c] ∧
          ndp.value = H.combine na.value na.value) ∧
        (∃ nda, st'.get? a = some nda ∧ nda.parent = some pid ∧
          nda.siblings = some [c]) ∧
        nodeValue st' c = some na.value := by
  intro ids
  induction ids using list_pair_induction with
  | h0 =>
      intro _ st vs _ hodd _ _
      simp at hodd
  | h1 a0 =>
      intro _ st vs hvals _ a hlast
      have ha0 : a = a0 := by
        simp [List.getLast?] at hlast
        omega
      subst ha0
      obtain ⟨va, vs', rfl, hva, hnil⟩ := (idsHaveValues_cons st a [] vs).mp hvals
      obtain ⟨na, ha, hnav⟩ := nodeValue_some st a va hva
      have hla : a < st.length := (List.get?_eq_some.mp ha).1
      have hclone := clone_node_spec st a na ha
      have h1a : (st ++ [na]).get? a = some na := by
        rw [List.get?_append hla]; exact ha
      have h1c : (st ++ [na]).get? st.length = some na :=
        List.get?_concat_length st na
      have hac : a ≠ st.length := by omega
      obtain ⟨st2, hcreate, hlen2, h2a, h2c, h2p, h2other, h2val⟩ :=
        create_node_spec H (st ++ [na]) a st.length na na hac h1a h1c
      have hbl : build_level H st [a] =
          some (st2, [(st ++ [na]).length]) := by
        unfold build_level
        rw [hclone]
        show (create_node H (st ++ [na]) a st.length).bind _ = _
        rw [hcreate]
        rfl
      refine ⟨st2, [(st ++ [na]).length], st.length, (st ++ [na]).length, na,
        hbl, ha, le_refl _, ⟨_, h2p, rfl, rfl⟩, ⟨_, h2a, rfl, rfl⟩, ?_⟩
      unfold nodeValue
      rw [h2c]
      rfl
  | h2 a0 b0 rest ih =>
      intro hpw st vs hvals hodd a hlast
      have hoddr : rest.length % 2 = 1 := by
        simp at hodd
        omega
      have hrestne : rest ≠ [] := by
        intro h
        rw [h] at hoddr
        simp at hoddr
      have hlast' : rest.getLast? = some a := by
        match rest, hrestne with
        | r :: rs, _ =>
            rw [List.getLast?_cons_cons, List.getLast?_cons_cons] at hlast
            exact hlast
      have hamem : a ∈ rest := by
        obtain ⟨hh, heq⟩ :=
          List.mem_getLast?_eq_getLast (Option.mem_def.mpr hlast')
        rw [heq]
        exact List.getLast_mem hh
      obtain ⟨hab', hpw1⟩ := List.pairwise_cons.mp hpw
      obtain ⟨hbr, hpwr⟩ := List.pairwise_cons.mp hpw1
      have hab : a0 ≠ b0 := (hab' b0 (by simp)).ne
      obtain ⟨va, vs1, rfl, hva, hvals1⟩ :=
        (idsHaveValues_cons st a0 (b0 :: rest) vs).mp hvals
      obtain ⟨vb, vrest, rfl, hvb, hvrest⟩ :=
        (idsHaveValues_cons st b0 rest vs1).mp hvals1
      obtain ⟨na0, ha0, _⟩ := nodeValue_some st a0 va hva
      obtain ⟨nb0, hb0, _⟩ := nodeValue_some st b0 vb hvb
      obtain ⟨st1, hcreate, hlen1, h1a, h1b, h1p, h1other, h1val⟩ :=
        create_node_spec H st a0 b0 na0 nb0 hab ha0 hb0
      have hvrest1 : idsHaveValues st1 rest vrest :=
        idsHaveValues_of_preserve st st1 h1val rest vrest hvrest
      obtain ⟨st2, ids2, c, pid, na, hbl2, hget_a, hc_ge, hndp, hnda, hvc⟩ :=
        ih hpwr st1 vrest hvrest1 hoddr a hlast'
      have halt : a < st.length :=
        idsHaveValues_mem_lt st rest vrest hvrest a hamem
      have hana0 : a ≠ a0 := by
        have := hab' a (List.mem_cons_of_mem b0 hamem)
        omega
      have hanb0 : a ≠ b0 := by
        have := hbr a hamem
        omega
      have hana : st1.get? a = st.get? a :=
        h1other a hana0 hanb0 (by omega)
      have hbl : build_level H st (a0 :: b0 :: rest) =
          some (st2, st.length :: ids2) := by
        unfold build_level
        rw [hcreate]
        show (build_level H st1 rest).bind _ = _
        rw [hbl2]
        rfl
      exact ⟨st2, st.length :: ids2, c, pid, na, hbl,
        by rw [← hana]; exact hget_a, by omega, hndp, hnda, hvc⟩

/-- Counterexample to C4 as stated: in the full variant, building the tree
over three items allocates a duplicate node (index 4, a clone of leaf 2
carrying the same hash), the parent (index 5) of the lone trailing leaf
owns two child references, and the lone leaf's sibling set is non-empty (it
holds the clone). -/
theorem C4_counterexample_clone_allocated :
    ((FullMerkleTree.create listHasher [[0], [1], [2]]).map
      (fun t =>
        ((t.arena.get? 2).map (fun nd => nd.siblings),
         (t.arena.get? 2).map (fun nd => nd.parent),
         (t.arena.get? 5).map (fun nd => nd.children),
         (t.arena.get? 4).map (fun nd => nd.value)))) =
      some (some (some [4]), some (some 5), some (some [2, 4]),
        some [2]) := rfl

/-- The concrete three-node leaf arena used by the C4 witness. -/
def leafArena3 : List (RNode (List Nat)) :=
  [⟨[0], none, none, none⟩, ⟨[1], none, none, none⟩, ⟨[2], none, none, none⟩]

/-- Witness for the amended C4 at a concrete input. -/
theorem C4_lone_node_gets_clone_sibling_witness :
    (([0, 1, 2] : List Nat).Pairwise (· < ·)) ∧
    ([0, 1, 2] : List Nat).length % 2 = 1 ∧
    (∃ st' ids' c pid na,
      build_level listHasher leafArena3 [0, 1, 2] = some (st', ids') ∧
      leafArena3.get? 2 = some na ∧
      leafArena3.length ≤ c ∧
      (∃ ndp, st'.get? pid = some ndp ∧ ndp.children = some [2, c] ∧
        ndp.value = listHasher.combine na.value na.value) ∧
      (∃ nda, st'.get? 2 = some nda ∧ nda.parent = some pid ∧
        nda.siblings = some [c]) ∧
      nodeValue st' c = some na.value) :=
  ⟨by decide, by decide,
    C4_lone_node_gets_clone_sibling listHasher [0, 1, 2] (by decide)
      leafArena3 [[0], [1], [2]] ⟨rfl, rfl, rfl, trivial⟩ (by decide) 2 rfl⟩

/-- C5: delete_leaf and update_leaf on an out-of-range index are silent
no-ops in both variants: no error is raised and the observable state
(leaf sequence, leaf count, root hash) is exactly the state before the
call. -/
theorem C5_out_of_range_mutations_noop (H : Hasher α)
    (tc : CompactMerkleTree α) (tf : FullMerkleTree α) (index : Nat)
    (d : List Nat) (hc : tc.leaves.length ≤ index)
    (hf : tf.leaves.length ≤ index) :
    tc.delete_leaf H index = some tc ∧
    tc.update_leaf H index d = some tc ∧
    tf.delete_leaf H index = some tf ∧
    tf.update_leaf H index d = some tf := by
  refine ⟨?_, ?_, ?_, ?_⟩
  · unfold CompactMerkleTree.delete_leaf
    rw [if_neg (by omega)]
  · unfold CompactMerkleTree.update_leaf
    rw [if_neg (by omega)]
  · unfold FullMerkleTree.delete_leaf
    rw [if_neg (by omega)]
  · unfold FullMerkleTree.update_leaf
    rw [List.get?_eq_none.mpr hf]

/-- A concrete one-leaf compact tree used by the C5 witness. -/
def tinyCompact : CompactMerkleTree (List Nat) := ⟨[[0]], [0]⟩

/-- A concrete one-leaf full tree used by the C5 witness. -/
def tinyFull : FullMerkleTree (List Nat) :=
  ⟨[⟨[0], none, none, none⟩], 0, [0], [0]⟩

/-- Witness for C5 at a concrete input. -/
theorem C5_out_of_range_mutations_noop_witness :
    tinyCompact.leaves.length ≤ 3 ∧ tinyFull.leaves.length ≤ 3 ∧
    (tinyCompact.delete_leaf listHasher 3 = some tinyCompact ∧
     tinyCompact.update_leaf listHasher 3 [7] = some tinyCompact ∧
     tinyFull.delete_leaf listHasher 3 = some tinyFull ∧
     tinyFull.update_leaf listHasher 3 [7] = some tinyFull) :=
  ⟨by decide, by decide,
    C5_out_of_range_mutations_noop listHasher tinyCompact tinyFull 3 [7]
      (by decide) (by decide)⟩

/-- C6: construction returns a failure exactly when the input item list is
empty, in both variants; every non-empty input yields a tree. -/
theorem C6_create_fails_iff_empty (H : Hasher α) (data : List (List Nat)) :
    (CompactMerkleTree.create H data = none ↔ data = []) ∧
    (FullMerkleTree.create H data = none ↔ data = []) := by
  constructor
  · constructor
    · intro h
      by_contra hne
      obtain ⟨tc, hc1, _⟩ := compact_create_spec H data hne
      rw [hc1] at h
      simp at h
    · rintro rfl
      rfl
  · constructor
    · intro h
      by_contra hne
      obtain ⟨tf, hf1, _⟩ := full_create_spec H data hne
      rw [hf1] at h
      simp at h
    · rintro rfl
      rfl

/-- C7: a tree built from exactly one item has root hash equal to that
item's leaf hash, in both variants; no combine step is involved (the
statement holds for every hash capability). -/
theorem C7_singleton_root_is_leaf_hash (H : Hasher α) (d : List Nat) :
    (∃ tc : CompactMerkleTree α,
      CompactMerkleTree.create H [d] = some tc ∧
      tc.root_hash = H.hashData d) ∧
    (∃ tf : FullMerkleTree α,
      FullMerkleTree.create H [d] = some tf ∧
      tf.root_hash = H.hashData d) := by
  have hne : ([d] : List (List Nat)) ≠ [] := by simp
  obtain ⟨tc, hc1, hc2, hc3⟩ := compact_create_spec H [d] hne
  obtain ⟨tf, hf1, _, _, hf4, _, _⟩ := full_create_spec H [d] hne
  have hspec : specReferenceRootAux H
      (([d] : List (List Nat)).map H.hashData) = some (H.hashData d) := by
    simp [specReferenceRootAux]
  exact ⟨⟨tc, hc1, Option.some.inj (hc3.symm.trans hspec)⟩,
    ⟨tf, hf1, Option.some.inj (hf4.symm.trans hspec)⟩⟩

/-- C8: gen_proof returns the explicit error result exactly on an
out-of-range index; for every in-range index it returns a proof whose
length is the number of reduction levels of the tree (the base-two ceiling
logarithm of the leaf count), one sibling hash per level. -/
theorem C8_gen_proof_domain_and_length (H : Hasher α)
    (data : List (List Nat)) (hne : data ≠ []) :
    ∃ tc tf, CompactMerkleTree.create H data = some tc ∧
      FullMerkleTree.create H data = some tf ∧
      (∀ i, data.length ≤ i →
        tc.gen_proof H i = none ∧ tf.gen_proof i = none) ∧
      (∀ i, i < data.length →
        (∃ p, tc.gen_proof H i = some p ∧
          p.length = Nat.clog 2 data.length) ∧
        (∃ p, tf.gen_proof i = some p ∧
          p.length = Nat.clog 2 data.length)) := by
  obtain ⟨tc, hc1, hc2, hc3⟩ := compact_create_spec H data hne
  obtain ⟨tf, hf1, hf2, hf3, hf4, hf5, hf6⟩ := full_create_spec H data hne
  have hnpos : 0 < data.length := List.length_pos.mpr hne
  refine ⟨tc, tf, hc1, hf1, ?_, ?_⟩
  · intro i hge
    constructor
    · unfold CompactMerkleTree.gen_proof
      rw [if_neg (by rw [hc2]; simp; omega)]
    · unfold FullMerkleTree.gen_proof
      rw [hf2, List.get?_eq_none.mpr (by simp; omega)]
  · intro i hlt
    obtain ⟨lh, hlh⟩ : ∃ lh, (data.map H.hashData).get? i = some lh :=
      ⟨_, List.get?_eq_some.mpr ⟨by simp; omega, rfl⟩⟩
    constructor
    · obtain ⟨p, hp, hplen, _⟩ := gen_proof_aux_spec H
        (data.map H.hashData).length (data.map H.hashData) i lh
        (le_refl _) hlh
      refine ⟨p, ?_, by rw [hplen]; simp⟩
      unfold CompactMerkleTree.gen_proof
      rw [if_pos (by rw [hc2]; simp; omega), hc2]
      exact hp
    · obtain ⟨p, hp, hplen, _⟩ := gen_proof_aux_spec H
        (tf.arena.length + 1) (data.map H.hashData) i lh
        (by simp; omega) hlh
      refine ⟨p, ?_, by rw [hplen]; simp⟩
      unfold FullMerkleTree.gen_proof
      rw [hf2, List.get?_range hlt]
      show full_proof_aux tf.arena (tf.arena.length + 1) i = some p
      rw [hf6 i hlt (tf.arena.length + 1) (by omega)]
      exact hp

/-- Witness for C8 at a concrete input. -/
theorem C8_gen_proof_domain_and_length_witness :
    (([[0], [1], [2]] : List (List Nat)) ≠ []) ∧
    (∃ tc tf,
      CompactMerkleTree.create listHasher [[0], [1], [2]] = some tc ∧
      FullMerkleTree.create listHasher [[0], [1], [2]] = some tf ∧
      (∀ i, ([[0], [1], [2]] : List (List Nat)).length ≤ i →
        tc.gen_proof listHasher i = none ∧ tf.gen_proof i = none) ∧
      (∀ i, i < ([[0], [1], [2]] : List (List Nat)).length →
        (∃ p, tc.gen_proof listHasher i = some p ∧
          p.length = Nat.clog 2 ([[0], [1], [2]] : List (List Nat)).length) ∧
        (∃ p, tf.gen_proof i = some p ∧
          p.length = Nat.clog 2 ([[0], [1], [2]] : List (List Nat)).length))) :=
  ⟨by decide,
    C8_gen_proof_domain_and_length listHasher [[0], [1], [2]] (by decide)⟩

/-- C9 exhibit: the claim of panic freedom fails on the code.  Deleting the
only leaf of a one-leaf compact tree empties the leaf list, the rebuild
runs calculate_root on an empty level and the unwrap of element 0 fails
(the Rust code panics; `none` is the modelled panic).  The full variant
diverges on the same input, as its rebuild loop never reaches length 1. -/
theorem C9_delete_last_leaf_unwrap_fails :
    (CompactMerkleTree.create listHasher [[0]]).bind
      (fun t => t.delete_leaf listHasher 0) = none := rfl

/-- C10: verifying with an empty proof sequence performs no combining and
returns true exactly when the claimed hash equals the stored root hash,
regardless of the claimed index and of the tree's actual size, in both
variants. -/
theorem C10_empty_proof_compares_root [DecidableEq α] (H : Hasher α)
    (tc : CompactMerkleTree α) (tf : FullMerkleTree α) (x : α) (i : Nat) :
    (tc.verify_proof H x i [] = true ↔ x = tc.root_hash) ∧
    (tf.verify_proof H x i [] = true ↔ x = tf.root_hash) := by
  constructor
  · simp [CompactMerkleTree.verify_proof, verify_fold]
  · simp [FullMerkleTree.verify_proof, verify_fold]
